import Mathlib

/-!
# Verification of the `EvictingCache` LRU cache (src/src/evicting-cache.ts)

Shallow embedding of the TypeScript class `EvictingCache<K, V>`.  The class is
built on a single JavaScript `Map<K, V>` whose iteration order is insertion
order; the recency ("LRU") order is maintained by deleting and re-inserting
keys, so the `Map`'s insertion order *is* the recency order (head = least
recently used, tail = most recently used).

Modelling choices, all taken from the source:

* A JavaScript `Map` is modelled as an association list `List (K × W)` in
  insertion order with the exact ECMAScript semantics of `get` / `has` /
  `set` (update in place if the key is present, else append) / `delete`
  (remove the unique entry for the key) / `clear`.
* JavaScript values of the generic type `V` may at runtime be `undefined` or
  `null`, and the class branches on both (`value === undefined` in `get`,
  `?? null` in `peek`, `!== null` in `getOrPut`/`getAll`).  The value domain
  is therefore `JSValue V` with constructors `undef`, `null`, `val`.
  `Map.get` on an absent key returns `undefined`, which is distinct from the
  association list having no entry, so the raw map lookup returns
  `Option (JSValue V)` and the embedding of `Map.prototype.get` coerces
  `none` to `JSValue.undef`.
* The `capacity` argument of the constructor is an arbitrary JavaScript
  number (possibly `NaN`, `±Infinity`, or fractional), modelled by `JSNum`.
  `NaN < 1` is `false` in JavaScript and `Number.isInteger` is `false` on
  all non-finite numbers; `JSNum.ltOne` and `JSNum.isInteger` reproduce
  this.  A capacity that passes validation is a positive integer and is
  stored as a `Nat`.
* Methods are state passing: a method that can mutate the receiver returns
  a pair of its result and the updated cache.  `getOrPut`'s producer
  callback is a value of `Except ε (JSValue V)`: `.error e` embeds a
  producer that throws `e`, `.ok v` one that returns `v`.
-/

set_option autoImplicit false
set_option linter.unusedSectionVars false

universe u v

/-- A JavaScript runtime value of static type `α`: either `undefined`,
`null`, or a proper value. -/
inductive JSValue (α : Type u) : Type u
  | undef
  | null
  | val (a : α)
deriving DecidableEq, Repr

namespace JSValue

/-- JavaScript "nullish" test: true exactly on `undefined` and `null`.
`x ?? y` returns `y` precisely when `x` is nullish. -/
def nullish {α : Type u} : JSValue α → Bool
  | .undef => true
  | .null => true
  | .val _ => false

/-- The JavaScript strict comparison `x === undefined`. -/
def isUndef {α : Type u} : JSValue α → Bool
  | .undef => true
  | _ => false

/-- The JavaScript strict comparison `x === null`. -/
def isNull {α : Type u} : JSValue α → Bool
  | .null => true
  | _ => false

@[simp] theorem nullish_undef {α : Type u} : (undef : JSValue α).nullish = true := rfl
@[simp] theorem nullish_null {α : Type u} : (null : JSValue α).nullish = true := rfl
@[simp] theorem nullish_val {α : Type u} (a : α) : (val a).nullish = false := rfl
@[simp] theorem isUndef_undef {α : Type u} : (undef : JSValue α).isUndef = true := rfl
@[simp] theorem isUndef_null {α : Type u} : (null : JSValue α).isUndef = false := rfl
@[simp] theorem isUndef_val {α : Type u} (a : α) : (val a).isUndef = false := rfl
@[simp] theorem isNull_undef {α : Type u} : (undef : JSValue α).isNull = false := rfl
@[simp] theorem isNull_null {α : Type u} : (null : JSValue α).isNull = true := rfl
@[simp] theorem isNull_val {α : Type u} (a : α) : (val a).isNull = false := rfl

end JSValue

/-- A JavaScript number, as far as the constructor's validation needs it:
`NaN`, `±Infinity`, or a finite value (finite doubles are rationals). -/
inductive JSNum : Type
  | nan
  | posInf
  | negInf
  | num (q : ℚ)
deriving DecidableEq, Repr

namespace JSNum

/-- The JavaScript comparison `x < 1`.  `NaN < 1` is `false`;
`Infinity < 1` is `false`; `-Infinity < 1` is `true`. -/
def ltOne : JSNum → Bool
  | .nan => false
  | .posInf => false
  | .negInf => true
  | .num q => decide (q < 1)

/-- `Number.isInteger`: `false` on every non-finite number, and on a finite
number true iff it has no fractional part. -/
def isInteger : JSNum → Bool
  | .num q => decide (q.den = 1)
  | _ => false

/-- The natural number denoted by a validated capacity (only used after
validation has established `1 ≤ q` and `q.den = 1`). -/
def toCapacity : JSNum → ℕ
  | .num q => q.num.toNat
  | _ => 0

end JSNum

/-- Decidable equality for `Except` (used to evaluate concrete facts about
`getOrPut`, whose producer is an `Except` value). -/
instance {ε : Type} {α : Type u} [DecidableEq ε] [DecidableEq α] :
    DecidableEq (Except ε α) := fun a b =>
  match a, b with
  | .error e1, .error e2 =>
      if h : e1 = e2 then .isTrue (by rw [h])
      else .isFalse (fun hc => h (Except.error.injEq e1 e2 ▸ hc))
  | .ok v1, .ok v2 =>
      if h : v1 = v2 then .isTrue (by rw [h])
      else .isFalse (fun hc => h (Except.ok.injEq v1 v2 ▸ hc))
  | .error _, .ok _ => .isFalse (fun hc => Except.noConfusion hc)
  | .ok _, .error _ => .isFalse (fun hc => Except.noConfusion hc)

section JSMap

variable {K : Type u} {W : Type v} [DecidableEq K]

/-- `Map.prototype.get`, at the association-list level: the value of the
(unique) entry for `k`, or `none` if there is no entry. -/
def jsMapGetOpt : List (K × W) → K → Option W
  | [], _ => none
  | e :: rest, k => if e.1 = k then some e.2 else jsMapGetOpt rest k

/-- `Map.prototype.has`. -/
def jsMapHas (m : List (K × W)) (k : K) : Bool :=
  (jsMapGetOpt m k).isSome

/-- `Map.prototype.delete`: removes the (unique) entry for `k`, keeping the
order of the others. -/
def jsMapDelete : List (K × W) → K → List (K × W)
  | [], _ => []
  | e :: rest, k => if e.1 = k then rest else e :: jsMapDelete rest k

/-- `Map.prototype.set`: if `k` is present its value is updated in place
(insertion order unchanged), otherwise the new entry is appended at the
end. -/
def jsMapSet : List (K × W) → K → W → List (K × W)
  | [], k, v => [(k, v)]
  | e :: rest, k, v => if e.1 = k then (k, v) :: rest else e :: jsMapSet rest k v

/-- The keys of a map, in insertion (= recency) order. -/
def jsMapKeys (m : List (K × W)) : List K :=
  m.map Prod.fst

end JSMap

/-- The state of an `EvictingCache<K, V>`: the fixed validated capacity, the
backing `Map` (insertion order = LRU order, head first), and the two
statistics counters. -/
structure EvictingCache (K : Type u) (V : Type v) : Type (max u v) where
  _capacity : ℕ
  cache : List (K × JSValue V)
  hits : ℕ
  misses : ℕ
deriving DecidableEq, Repr

namespace EvictingCache

variable {K : Type u} {V : Type v} [DecidableEq K]

/-- The constructor.
```
constructor(capacity: number = 100) {
  if (capacity < 1) { throw new RangeError('capacity must be greater than 0') }
  if (!Number.isInteger(capacity)) { throw new RangeError('capacity must be an integer') }
  this._capacity = capacity;
  this.cache = new Map();
}
```
`.error` embeds the thrown `RangeError` (its message). -/
def create (K : Type u) (V : Type v) (capacity : JSNum := .num 100) :
    Except String (EvictingCache K V) :=
  if capacity.ltOne then .error "capacity must be greater than 0"
  else if !capacity.isInteger then .error "capacity must be an integer"
  else .ok { _capacity := capacity.toCapacity, cache := [], hits := 0, misses := 0 }

/-- A freshly constructed cache with (validated) capacity `cap`. -/
def fresh (K : Type u) (V : Type v) (cap : ℕ) : EvictingCache K V :=
  { _capacity := cap, cache := [], hits := 0, misses := 0 }

/-- `get(key)`: returns the value and updates the LRU order.
```
get(key: K): V | null {
  const value = this.cache.get(key);
  if (value === undefined) { this.misses++; return null; }
  this.hits++;
  this.cache.delete(key);
  this.cache.set(key, value);
  return value;
}
```
`Map.get` yields `undefined` when the key is absent, hence the `getD .undef`. -/
def get (c : EvictingCache K V) (k : K) : JSValue V × EvictingCache K V :=
  let value := (jsMapGetOpt c.cache k).getD .undef
  if value.isUndef then
    (.null, { c with misses := c.misses + 1 })
  else
    (value, { c with hits := c.hits + 1,
                     cache := jsMapSet (jsMapDelete c.cache k) k value })

/-- `has(key)`: membership in the backing `Map`. -/
def has (c : EvictingCache K V) (k : K) : Bool :=
  jsMapHas c.cache k

/-- `evict()`: removes the first (least-recently-used) entry, if any.
```
evict(): boolean {
  const firstEntry = this.cache.keys().next();
  if (firstEntry.done) { return false }
  return this.cache.delete(firstEntry.value);
}
``` -/
def evict (c : EvictingCache K V) : Bool × EvictingCache K V :=
  match c.cache with
  | [] => (false, c)
  | e :: _ =>
      (jsMapHas c.cache e.1, { c with cache := jsMapDelete c.cache e.1 })

/-- `putAndEvict(key, value)` (private).
```
private putAndEvict(key: K, value: V): V {
  const existed = this.cache.delete(key);
  if (!existed && this._capacity <= this.cache.size) { this.evict() }
  this.cache.set(key, value);
  return value;
}
```
`this.cache.delete(key)` returns whether the key was present; the size in
the eviction test is the size *after* that delete. -/
def putAndEvict (c : EvictingCache K V) (k : K) (v : JSValue V) :
    JSValue V × EvictingCache K V :=
  let existed := jsMapHas c.cache k
  let c1 : EvictingCache K V := { c with cache := jsMapDelete c.cache k }
  let c2 := if existed = false ∧ c._capacity ≤ c1.cache.length then (c1.evict).2 else c1
  (v, { c2 with cache := jsMapSet c2.cache k v })

/-- `put(key, value)`: delegates to `putAndEvict`, discarding its result. -/
def put (c : EvictingCache K V) (k : K) (v : JSValue V) : EvictingCache K V :=
  (c.putAndEvict k v).2

/-- `delete(key)`: removes the key, returns whether it was present. -/
def delete (c : EvictingCache K V) (k : K) : Bool × EvictingCache K V :=
  (jsMapHas c.cache k, { c with cache := jsMapDelete c.cache k })

/-- `peek(key)`: `return this.cache.get(key) ?? null` — no mutation, so the
returned state is the receiver unchanged. -/
def peek (c : EvictingCache K V) (k : K) : JSValue V × EvictingCache K V :=
  let v := (jsMapGetOpt c.cache k).getD .undef
  (if v.nullish then .null else v, c)

/-- `getOrPut(key, producer)`.
```
getOrPut(key: K, producer: () => V): V {
  const existing = this.get(key);
  if (existing !== null) { return existing }
  const value = producer();
  return this.putAndEvict(key, value);
}
```
A throwing producer is `.error e`: the error propagates and the state is
whatever `get` left behind. -/
def getOrPut {ε : Type} (c : EvictingCache K V) (k : K)
    (producer : Except ε (JSValue V)) : Except ε (JSValue V) × EvictingCache K V :=
  let r := c.get k
  if r.1.isNull = false then (.ok r.1, r.2)
  else
    match producer with
    | .error e => (.error e, r.2)
    | .ok v =>
        let r2 := r.2.putAndEvict k v
        (.ok r2.1, r2.2)

/-- `clear()`: `this.cache.clear()`. -/
def clear (c : EvictingCache K V) : EvictingCache K V :=
  { c with cache := [] }

/-- `getAll(keys)`: one `get` per key, collecting the non-`null` results
into a fresh `Map`.
```
getAll(keys: Iterable<K>): Map<K, V> {
  const result = new Map<K, V>();
  for (const key of keys) {
    const value = this.get(key);
    if (value !== null) { result.set(key, value) }
  }
  return result;
}
``` -/
def getAll (c : EvictingCache K V) (keys : List K) :
    List (K × JSValue V) × EvictingCache K V :=
  keys.foldl
    (fun acc key =>
      let r := acc.2.get key
      (if r.1.isNull = false then jsMapSet acc.1 key r.1 else acc.1, r.2))
    ([], c)

/-- `resetStats()`: zeroes both counters. -/
def resetStats (c : EvictingCache K V) : EvictingCache K V :=
  { c with hits := 0, misses := 0 }

/-- `size` accessor: `this.cache.size`. -/
def size (c : EvictingCache K V) : ℕ :=
  c.cache.length

/-- `keys()` iterator: the keys in LRU-to-MRU order. -/
def keysList (c : EvictingCache K V) : List K :=
  jsMapKeys c.cache

end EvictingCache

/-- One public mutating operation of the cache, for stating invariants over
arbitrary call sequences.  `getOrPut`'s producer is carried as data. -/
inductive CacheOp (K : Type u) (V : Type v) (ε : Type) : Type (max u v)
  | put (k : K) (v : JSValue V)
  | get (k : K)
  | getOrPut (k : K) (producer : Except ε (JSValue V))
  | delete (k : K)
  | evict
  | clear

namespace CacheOp

variable {K : Type u} {V : Type v} {ε : Type} [DecidableEq K]

/-- Run one operation, discarding its result. -/
def apply (c : EvictingCache K V) : CacheOp K V ε → EvictingCache K V
  | .put k v => c.put k v
  | .get k => (c.get k).2
  | .getOrPut k p => (c.getOrPut k p).2
  | .delete k => (c.delete k).2
  | .evict => (c.evict).2
  | .clear => c.clear

/-- Run a sequence of operations from left to right. -/
def applyAll (c : EvictingCache K V) (ops : List (CacheOp K V ε)) : EvictingCache K V :=
  ops.foldl CacheOp.apply c

end CacheOp

/-! ## Lemmas about the `Map` model -/

section JSMapLemmas

variable {K : Type u} {W : Type v} [DecidableEq K]

@[simp] theorem jsMapKeys_nil : jsMapKeys ([] : List (K × W)) = [] := rfl

@[simp] theorem jsMapKeys_cons (e : K × W) (m : List (K × W)) :
    jsMapKeys (e :: m) = e.1 :: jsMapKeys m := rfl

@[simp] theorem jsMapKeys_append (m₁ m₂ : List (K × W)) :
    jsMapKeys (m₁ ++ m₂) = jsMapKeys m₁ ++ jsMapKeys m₂ :=
  List.map_append _ _ _

@[simp] theorem jsMapGetOpt_nil (k : K) : jsMapGetOpt ([] : List (K × W)) k = none := rfl

theorem jsMapGetOpt_cons (e : K × W) (m : List (K × W)) (k : K) :
    jsMapGetOpt (e :: m) k = if e.1 = k then some e.2 else jsMapGetOpt m k := rfl

theorem jsMapGetOpt_isSome_iff_mem (m : List (K × W)) (k : K) :
    (jsMapGetOpt m k).isSome = true ↔ k ∈ jsMapKeys m := by
  induction m with
  | nil => simp
  | cons e rest ih =>
      rw [jsMapGetOpt_cons, jsMapKeys_cons]
      by_cases h : e.1 = k
      · simp [h]
      · have h' : ¬ k = e.1 := fun hh => h hh.symm
        simp [h, h', ih]

theorem jsMapHas_iff_mem (m : List (K × W)) (k : K) :
    jsMapHas m k = true ↔ k ∈ jsMapKeys m :=
  jsMapGetOpt_isSome_iff_mem m k

theorem jsMapGetOpt_eq_none_of_not_mem {m : List (K × W)} {k : K}
    (h : k ∉ jsMapKeys m) : jsMapGetOpt m k = none := by
  have := (jsMapGetOpt_isSome_iff_mem m k).not.mpr h
  cases hv : jsMapGetOpt m k with
  | none => rfl
  | some v => rw [hv] at this; simp at this

theorem jsMapKeys_delete (m : List (K × W)) (k : K) :
    jsMapKeys (jsMapDelete m k) = (jsMapKeys m).erase k := by
  induction m with
  | nil => rfl
  | cons e rest ih =>
      by_cases h : e.1 = k
      · simp [jsMapDelete, h, List.erase_cons_head]
      · simp [jsMapDelete, h, List.erase_cons_tail, ih]

theorem jsMapDelete_of_not_mem {m : List (K × W)} {k : K}
    (h : k ∉ jsMapKeys m) : jsMapDelete m k = m := by
  induction m with
  | nil => rfl
  | cons e rest ih =>
      simp only [jsMapKeys_cons, List.mem_cons, not_or] at h
      have hne : e.1 ≠ k := Ne.symm h.1
      simp [jsMapDelete, hne, ih h.2]

theorem jsMapSet_of_not_mem {m : List (K × W)} {k : K} (v : W)
    (h : k ∉ jsMapKeys m) : jsMapSet m k v = m ++ [(k, v)] := by
  induction m with
  | nil => rfl
  | cons e rest ih =>
      simp only [jsMapKeys_cons, List.mem_cons, not_or] at h
      have hne : e.1 ≠ k := Ne.symm h.1
      simp [jsMapSet, hne, ih h.2]

theorem jsMapGetOpt_delete_of_ne {m : List (K × W)} {k k' : K} (h : k' ≠ k) :
    jsMapGetOpt (jsMapDelete m k) k' = jsMapGetOpt m k' := by
  induction m with
  | nil => rfl
  | cons e rest ih =>
      by_cases he : e.1 = k
      · have h2 : ¬ e.1 = k' := by rw [he]; exact fun hh => h hh.symm
        simp only [jsMapDelete, if_pos he, jsMapGetOpt_cons, if_neg h2]
      · simp only [jsMapDelete, if_neg he, jsMapGetOpt_cons, ih]

theorem jsMapGetOpt_append_of_not_mem {m₁ : List (K × W)} (m₂ : List (K × W))
    {k : K} (h : k ∉ jsMapKeys m₁) :
    jsMapGetOpt (m₁ ++ m₂) k = jsMapGetOpt m₂ k := by
  induction m₁ with
  | nil => rfl
  | cons e rest ih =>
      simp only [jsMapKeys_cons, List.mem_cons, not_or] at h
      have hne : e.1 ≠ k := Ne.symm h.1
      simp [jsMapGetOpt_cons, hne, ih h.2]

theorem jsMapGetOpt_append_of_mem {m₁ : List (K × W)} (m₂ : List (K × W))
    {k : K} (h : k ∈ jsMapKeys m₁) :
    jsMapGetOpt (m₁ ++ m₂) k = jsMapGetOpt m₁ k := by
  induction m₁ with
  | nil => simp at h
  | cons e rest ih =>
      by_cases he : e.1 = k
      · simp [jsMapGetOpt_cons, he]
      · simp only [jsMapKeys_cons, List.mem_cons] at h
        have hm : k ∈ jsMapKeys rest := by
          rcases h with h | h
          · exact absurd h.symm he
          · exact h
        simp [jsMapGetOpt_cons, he, ih hm]

theorem length_jsMapDelete (m : List (K × W)) (k : K) :
    (jsMapDelete m k).length =
      if k ∈ jsMapKeys m then m.length - 1 else m.length := by
  have h1 : (jsMapDelete m k).length = (jsMapKeys (jsMapDelete m k)).length :=
    (List.length_map _ _).symm
  have h2 : m.length = (jsMapKeys m).length := (List.length_map _ _).symm
  rw [h1, jsMapKeys_delete, h2]
  by_cases h : k ∈ jsMapKeys m
  · simp [h, List.length_erase_of_mem h]
  · simp [h, List.erase_of_not_mem h]

theorem nodup_jsMapKeys_delete {m : List (K × W)} (k : K)
    (h : (jsMapKeys m).Nodup) : (jsMapKeys (jsMapDelete m k)).Nodup := by
  rw [jsMapKeys_delete]; exact h.erase k

theorem not_mem_jsMapKeys_delete {m : List (K × W)} (k : K)
    (h : (jsMapKeys m).Nodup) : k ∉ jsMapKeys (jsMapDelete m k) := by
  rw [jsMapKeys_delete]; exact h.not_mem_erase

theorem length_jsMapDelete_le (m : List (K × W)) (k : K) :
    (jsMapDelete m k).length ≤ m.length := by
  rw [length_jsMapDelete]
  split
  · omega
  · exact le_rfl

theorem nodup_append_singleton {α : Type u} {l : List α} {a : α}
    (h : l.Nodup) (ha : a ∉ l) : (l ++ [a]).Nodup := by
  simp [List.nodup_append, h, List.disjoint_singleton, ha]

theorem jsMapGetOpt_set_self (m : List (K × W)) (k : K) (v : W) :
    jsMapGetOpt (jsMapSet m k v) k = some v := by
  induction m with
  | nil => simp [jsMapSet, jsMapGetOpt_cons]
  | cons e rest ih =>
      by_cases he : e.1 = k
      · simp [jsMapSet, he, jsMapGetOpt_cons]
      · simp [jsMapSet, he, jsMapGetOpt_cons, ih]

theorem jsMapGetOpt_set_ne {m : List (K × W)} {k k2 : K} (v : W)
    (h : k2 ≠ k) : jsMapGetOpt (jsMapSet m k v) k2 = jsMapGetOpt m k2 := by
  have hkk : ¬ k = k2 := fun hh => h hh.symm
  induction m with
  | nil => simp [jsMapSet, jsMapGetOpt_cons, hkk]
  | cons e rest ih =>
      by_cases he : e.1 = k
      · simp [jsMapSet, jsMapGetOpt_cons, he, hkk]
      · simp [jsMapSet, he, jsMapGetOpt_cons, ih]

theorem jsMapGetOpt_append_single_self {m : List (K × W)} (k : K) (v : W)
    (h : k ∉ jsMapKeys m) : jsMapGetOpt (m ++ [(k, v)]) k = some v := by
  rw [jsMapGetOpt_append_of_not_mem _ h]
  simp [jsMapGetOpt_cons]

theorem jsMapGetOpt_append_single_ne {m : List (K × W)} {k k2 : K} (v : W)
    (h : k2 ≠ k) : jsMapGetOpt (m ++ [(k, v)]) k2 = jsMapGetOpt m k2 := by
  by_cases hm : k2 ∈ jsMapKeys m
  · exact jsMapGetOpt_append_of_mem _ hm
  · rw [jsMapGetOpt_append_of_not_mem _ hm, jsMapGetOpt_eq_none_of_not_mem hm]
    have hkk : ¬ k = k2 := fun hh => h hh.symm
    simp [jsMapGetOpt_cons, hkk]

end JSMapLemmas

/-! ## Structural lemmas about the cache operations -/

namespace EvictingCache

variable {K : Type u} {V : Type v} [DecidableEq K]

theorem has_iff_mem (c : EvictingCache K V) (k : K) :
    c.has k = true ↔ k ∈ c.keysList :=
  jsMapHas_iff_mem c.cache k

theorem not_mem_of_has_false {c : EvictingCache K V} {k : K}
    (h : c.has k = false) : k ∉ c.keysList := by
  intro hm
  rw [← has_iff_mem] at hm
  rw [h] at hm
  exact Bool.false_ne_true hm

/-- `get` on an absent key: a miss, no structural change. -/
theorem get_of_absent {c : EvictingCache K V} {k : K}
    (h : jsMapGetOpt c.cache k = none) :
    c.get k = (.null, { c with misses := c.misses + 1 }) := by
  simp [get, h]

/-- `get` on a key whose stored value is `undefined`: also a miss. -/
theorem get_of_undef {c : EvictingCache K V} {k : K}
    (h : jsMapGetOpt c.cache k = some .undef) :
    c.get k = (.null, { c with misses := c.misses + 1 }) := by
  simp [get, h]

/-- `get` on a key with a non-`undefined` stored value: a hit, and the entry
is deleted and re-inserted (moved to the tail). -/
theorem get_of_some {c : EvictingCache K V} {k : K} {v : JSValue V}
    (h : jsMapGetOpt c.cache k = some v) (hv : v.isUndef = false) :
    c.get k = (v, { c with hits := c.hits + 1,
                           cache := jsMapSet (jsMapDelete c.cache k) k v }) := by
  simp [get, h, hv]

/-- The hit case of `get` in append form: the key moves to the tail while
every other entry keeps its relative order. -/
theorem get_of_some_nodup {c : EvictingCache K V} {k : K} {v : JSValue V}
    (h : jsMapGetOpt c.cache k = some v) (hv : v.isUndef = false)
    (hnd : (c.keysList).Nodup) :
    c.get k = (v, { c with hits := c.hits + 1,
                           cache := jsMapDelete c.cache k ++ [(k, v)] }) := by
  rw [get_of_some h hv,
    jsMapSet_of_not_mem v (not_mem_jsMapKeys_delete k hnd)]

theorem evict_of_nil {c : EvictingCache K V} (h : c.cache = []) :
    c.evict = (false, c) := by
  simp [evict, h]

theorem evict_of_cons {c : EvictingCache K V} {e : K × JSValue V}
    {rest : List (K × JSValue V)} (h : c.cache = e :: rest) :
    c.evict = (true, { c with cache := rest }) := by
  simp [evict, h, jsMapHas, jsMapGetOpt_cons, jsMapDelete]

/-- `putAndEvict` on a resident key: delete + re-insert, no eviction. -/
theorem putAndEvict_of_resident {c : EvictingCache K V} {k : K} (v : JSValue V)
    (h : c.has k = true) :
    c.putAndEvict k v =
      (v, { c with cache := jsMapSet (jsMapDelete c.cache k) k v }) := by
  simp [putAndEvict, has] at h ⊢
  simp [h]

/-- `putAndEvict` on a new key with room to spare: plain append. -/
theorem putAndEvict_of_new_room {c : EvictingCache K V} {k : K} (v : JSValue V)
    (h : c.has k = false) (hroom : c.cache.length < c._capacity) :
    c.putAndEvict k v = (v, { c with cache := c.cache ++ [(k, v)] }) := by
  have hmem : k ∉ c.keysList := not_mem_of_has_false h
  have hdel : jsMapDelete c.cache k = c.cache := jsMapDelete_of_not_mem hmem
  simp [putAndEvict, has, jsMapHas] at h
  simp [putAndEvict, h, hdel, Nat.not_le.mpr hroom, jsMapSet_of_not_mem v hmem]

/-- `putAndEvict` on a new key with the cache at (or beyond) capacity:
the head entry is evicted, then the new entry is appended. -/
theorem putAndEvict_of_new_full {c : EvictingCache K V} {k : K} (v : JSValue V)
    (h : c.has k = false) (hfull : c._capacity ≤ c.cache.length)
    (hpos : 0 < c.cache.length) :
    c.putAndEvict k v = (v, { c with cache := c.cache.tail ++ [(k, v)] }) := by
  have hmem : k ∉ c.keysList := not_mem_of_has_false h
  obtain ⟨cap, m, hs, ms⟩ := c
  cases m with
  | nil => simp at hpos
  | cons e rest =>
      have hke : ¬ k = e.1 ∧ k ∉ jsMapKeys rest := by
        simpa [keysList, jsMapKeys, List.mem_cons, not_or] using hmem
      have he1 : ¬ e.1 = k := Ne.symm hke.1
      have hmem' : k ∉ jsMapKeys rest := hke.2
      have hGetRest : jsMapGetOpt rest k = none :=
        jsMapGetOpt_eq_none_of_not_mem hmem'
      have hfull' : cap ≤ rest.length + 1 := by
        simpa using (hfull : cap ≤ (e :: rest).length)
      simp [putAndEvict, evict, jsMapHas, jsMapGetOpt_cons, jsMapDelete,
        he1, hGetRest, hfull', jsMapDelete_of_not_mem hmem',
        jsMapSet_of_not_mem v hmem']

end EvictingCache

/-! ## The cache invariant -/

namespace EvictingCache

variable {K : Type u} {V : Type v} {ε : Type} [DecidableEq K]

/-- The representation invariant maintained by every public operation:
no duplicate keys, at most `capacity` entries, positive capacity. -/
def Inv (c : EvictingCache K V) : Prop :=
  (c.keysList).Nodup ∧ c.cache.length ≤ c._capacity ∧ 1 ≤ c._capacity

instance (c : EvictingCache K V) : Decidable (Inv c) :=
  decidable_of_iff ((c.keysList).Nodup ∧ c.cache.length ≤ c._capacity ∧ 1 ≤ c._capacity)
    Iff.rfl

theorem inv_fresh (cap : ℕ) (h : 0 < cap) : Inv (fresh K V cap) :=
  ⟨List.nodup_nil, by simp [fresh], h⟩

theorem mem_keysList_of_getOpt_some {c : EvictingCache K V} {k : K} {v : JSValue V}
    (h : jsMapGetOpt c.cache k = some v) : k ∈ c.keysList := by
  rw [← has_iff_mem]
  simp [has, jsMapHas, h]

/-- Deleting a key and re-inserting it (in any of `get`'s and
`putAndEvict`'s paths) keeps the keys duplicate-free and, when the key was
present, the size unchanged. -/
theorem delete_set_nodup_length {m : List (K × JSValue V)} (k : K) (v : JSValue V)
    (hnd : (jsMapKeys m).Nodup) (hk : k ∈ jsMapKeys m) :
    (jsMapKeys (jsMapSet (jsMapDelete m k) k v)).Nodup ∧
      (jsMapSet (jsMapDelete m k) k v).length = m.length := by
  have hnm := not_mem_jsMapKeys_delete k hnd
  rw [jsMapSet_of_not_mem v hnm]
  have hlen : 0 < m.length := by
    cases m with
    | nil => simp [jsMapKeys] at hk
    | cons e rest => simp
  refine ⟨?_, ?_⟩
  · rw [jsMapKeys_append]
    have : jsMapKeys [(k, v)] = [k] := rfl
    rw [this]
    exact nodup_append_singleton (nodup_jsMapKeys_delete k hnd) hnm
  · rw [List.length_append, length_jsMapDelete]
    simp only [hk, if_true, List.length_singleton]
    omega

theorem inv_get {c : EvictingCache K V} (hinv : Inv c) (k : K) :
    Inv ((c.get k).2) := by
  cases hv : jsMapGetOpt c.cache k with
  | none => rw [get_of_absent hv]; exact hinv
  | some v =>
      cases hvu : v.isUndef with
      | true =>
          have : v = .undef := by cases v <;> simp_all
          rw [this] at hv
          rw [get_of_undef hv]
          exact hinv
      | false =>
          rw [get_of_some hv hvu]
          obtain ⟨h1, h2⟩ := delete_set_nodup_length k v hinv.1
            (mem_keysList_of_getOpt_some hv)
          exact ⟨h1, by rw [h2]; exact hinv.2.1, hinv.2.2⟩

theorem inv_putAndEvict {c : EvictingCache K V} (hinv : Inv c) (k : K)
    (v : JSValue V) : Inv ((c.putAndEvict k v).2) := by
  cases hh : c.has k with
  | true =>
      rw [putAndEvict_of_resident v hh]
      obtain ⟨h1, h2⟩ := delete_set_nodup_length k v hinv.1
        ((has_iff_mem c k).mp hh)
      exact ⟨h1, by rw [h2]; exact hinv.2.1, hinv.2.2⟩
  | false =>
      have hmem : k ∉ c.keysList := not_mem_of_has_false hh
      cases Nat.lt_or_ge c.cache.length c._capacity with
      | inl hroom =>
          rw [putAndEvict_of_new_room v hh hroom]
          refine ⟨?_, ?_, hinv.2.2⟩
          · show (jsMapKeys (c.cache ++ [(k, v)])).Nodup
            rw [jsMapKeys_append]
            exact nodup_append_singleton hinv.1 hmem
          · show (c.cache ++ [(k, v)]).length ≤ c._capacity
            rw [List.length_append]
            simpa using hroom
      | inr hfull =>
          have hpos : 0 < c.cache.length := Nat.lt_of_lt_of_le hinv.2.2 hfull
          rw [putAndEvict_of_new_full v hh hfull hpos]
          obtain ⟨e, rest, hc⟩ : ∃ e rest, c.cache = e :: rest := by
            cases hcc : c.cache with
            | nil => rw [hcc] at hpos; simp at hpos
            | cons e rest => exact ⟨e, rest, rfl⟩
          have hndrest : (jsMapKeys rest).Nodup := by
            have := hinv.1
            rw [show c.keysList = jsMapKeys c.cache from rfl, hc] at this
            exact (List.nodup_cons.mp this).2
          have hmemrest : k ∉ jsMapKeys rest := by
            intro hm
            apply hmem
            rw [show c.keysList = jsMapKeys c.cache from rfl, hc]
            exact List.mem_cons_of_mem _ hm
          refine ⟨?_, ?_, hinv.2.2⟩
          · show (jsMapKeys (c.cache.tail ++ [(k, v)])).Nodup
            rw [hc, jsMapKeys_append]
            exact nodup_append_singleton hndrest hmemrest
          · show (c.cache.tail ++ [(k, v)]).length ≤ c._capacity
            have hlecap : c.cache.length ≤ c._capacity := hinv.2.1
            rw [hc] at hlecap
            rw [hc]
            simp only [List.tail_cons, List.length_append, List.length_cons,
              List.length_nil] at *
            omega

theorem inv_put {c : EvictingCache K V} (hinv : Inv c) (k : K) (v : JSValue V) :
    Inv (c.put k v) :=
  inv_putAndEvict hinv k v

theorem inv_delete {c : EvictingCache K V} (hinv : Inv c) (k : K) :
    Inv ((c.delete k).2) := by
  refine ⟨?_, ?_, hinv.2.2⟩
  · show (jsMapKeys (jsMapDelete c.cache k)).Nodup
    exact nodup_jsMapKeys_delete k hinv.1
  · show (jsMapDelete c.cache k).length ≤ c._capacity
    exact le_trans (length_jsMapDelete_le c.cache k) hinv.2.1

theorem inv_evict {c : EvictingCache K V} (hinv : Inv c) : Inv ((c.evict).2) := by
  cases hc : c.cache with
  | nil => rw [evict_of_nil hc]; exact hinv
  | cons e rest =>
      rw [evict_of_cons hc]
      have hnd := hinv.1
      rw [show c.keysList = jsMapKeys c.cache from rfl, hc] at hnd
      refine ⟨(List.nodup_cons.mp hnd).2, ?_, hinv.2.2⟩
      show rest.length ≤ c._capacity
      have : c.cache.length ≤ c._capacity := hinv.2.1
      rw [hc] at this
      simp only [List.length_cons] at this
      omega

theorem inv_clear {c : EvictingCache K V} (hinv : Inv c) : Inv (c.clear) :=
  ⟨List.nodup_nil, by simp [clear], hinv.2.2⟩

theorem inv_getOrPut {c : EvictingCache K V} (hinv : Inv c) (k : K)
    (p : Except ε (JSValue V)) : Inv ((c.getOrPut k p).2) := by
  simp only [getOrPut]
  split
  · exact inv_get hinv k
  · cases p with
    | error e => exact inv_get hinv k
    | ok v => exact inv_putAndEvict (inv_get hinv k) k v

theorem inv_apply {c : EvictingCache K V} (hinv : Inv c) (op : CacheOp K V ε) :
    Inv (op.apply c) := by
  cases op with
  | put k v => exact inv_put hinv k v
  | get k => exact inv_get hinv k
  | getOrPut k p => exact inv_getOrPut hinv k p
  | delete k => exact inv_delete hinv k
  | evict => exact inv_evict hinv
  | clear => exact inv_clear hinv

theorem inv_applyAll {c : EvictingCache K V} (hinv : Inv c)
    (ops : List (CacheOp K V ε)) : Inv (CacheOp.applyAll c ops) := by
  induction ops generalizing c with
  | nil => exact hinv
  | cons op rest ih => exact ih (inv_apply hinv op)

end EvictingCache

theorem getLast?_append_singleton {α : Type u} (l : List α) (a : α) :
    (l ++ [a]).getLast? = some a := by
  rw [@List.getLast?_append_of_ne_nil _ l [a] (by simp)]
  rfl

/-! ## Frame lemmas about `get` -/

namespace EvictingCache

variable {K : Type u} {V : Type v} {ε : Type} [DecidableEq K]

/-- `get` never changes any stored value (it only reorders entries). -/
theorem get_lookup_eq {c : EvictingCache K V} (k : K)
    (hnd : c.keysList.Nodup) (k2 : K) :
    jsMapGetOpt ((c.get k).2).cache k2 = jsMapGetOpt c.cache k2 := by
  cases hv : jsMapGetOpt c.cache k with
  | none => rw [get_of_absent hv]
  | some w =>
      cases hwu : w.isUndef with
      | true =>
          have : w = .undef := by cases w <;> simp_all
          rw [this] at hv
          rw [get_of_undef hv]
      | false =>
          rw [get_of_some_nodup hv hwu hnd]
          by_cases hk : k2 = k
          · subst hk
            show jsMapGetOpt (jsMapDelete c.cache k2 ++ [(k2, w)]) k2 =
              jsMapGetOpt c.cache k2
            rw [jsMapGetOpt_append_single_self k2 w
              (not_mem_jsMapKeys_delete k2 hnd), hv]
          · show jsMapGetOpt (jsMapDelete c.cache k ++ [(k, w)]) k2 =
              jsMapGetOpt c.cache k2
            rw [jsMapGetOpt_append_single_ne w hk, jsMapGetOpt_delete_of_ne hk]

/-- `get` keeps the keys duplicate-free. -/
theorem get_nodup {c : EvictingCache K V} (k : K)
    (hnd : c.keysList.Nodup) : (((c.get k).2).keysList).Nodup := by
  cases hv : jsMapGetOpt c.cache k with
  | none => rw [get_of_absent hv]; exact hnd
  | some w =>
      cases hwu : w.isUndef with
      | true =>
          have : w = .undef := by cases w <;> simp_all
          rw [this] at hv
          rw [get_of_undef hv]
          exact hnd
      | false =>
          rw [get_of_some_nodup hv hwu hnd]
          show (jsMapKeys (jsMapDelete c.cache k ++ [(k, w)])).Nodup
          rw [jsMapKeys_append]
          exact nodup_append_singleton (nodup_jsMapKeys_delete k hnd)
            (not_mem_jsMapKeys_delete k hnd)

/-- The value returned by `get`: the stored value when it is neither
absent nor `undefined`, else the `null` sentinel. -/
theorem get_fst_eq {c : EvictingCache K V} (k : K) (hnd : c.keysList.Nodup) :
    (c.get k).1 =
      match jsMapGetOpt c.cache k with
      | none => .null
      | some w => if w.isUndef then .null else w := by
  cases hv : jsMapGetOpt c.cache k with
  | none => rw [get_of_absent hv]
  | some w =>
      cases hwu : w.isUndef with
      | true =>
          have hw : w = .undef := by cases w <;> simp_all
          rw [hw] at hv
          rw [get_of_undef hv]
          simp [hwu]
      | false =>
          rw [get_of_some_nodup hv hwu hnd]
          simp [hwu]

/-- The test `get(key) !== null` succeeds exactly when the stored value is
a proper (non-nullish) value. -/
theorem get_fst_isNull_false_iff {c : EvictingCache K V} (k : K)
    (hnd : c.keysList.Nodup) :
    ((c.get k).1.isNull = false) ↔
      ((jsMapGetOpt c.cache k).getD JSValue.undef).nullish = false := by
  rw [get_fst_eq k hnd]
  cases hv : jsMapGetOpt c.cache k with
  | none => simp
  | some w => cases w <;> simp

end EvictingCache

/-! ## Claim theorems -/

/-- **C1** (invariants): after every sequence of public operations
(`put`/`get`/`getOrPut`/`delete`/`evict`/`clear`) starting from a freshly
constructed cache, the number of resident entries (`size`) equals the
number of distinct resident keys, `size ≤ capacity`, the key set of the
value table equals the key set of the recency order (a key has an entry
iff it occurs in the order), and the recency order has no duplicate
keys. -/
theorem c1_invariants_after_any_op_sequence (K : Type u) (V : Type v) (ε : Type)
    [DecidableEq K] (cap : ℕ) (hcap : 0 < cap) (ops : List (CacheOp K V ε)) :
    let c := CacheOp.applyAll (EvictingCache.fresh K V cap) ops
    c.size = c.keysList.dedup.length ∧
    c.size ≤ c._capacity ∧
    (∀ k, c.has k = true ↔ k ∈ c.keysList) ∧
    c.keysList.Nodup := by
  intro c
  have hinv : c.Inv :=
    EvictingCache.inv_applyAll (EvictingCache.inv_fresh cap hcap) ops
  refine ⟨?_, hinv.2.1, fun k => EvictingCache.has_iff_mem c k, hinv.1⟩
  rw [hinv.1.dedup]
  show c.cache.length = (c.cache.map Prod.fst).length
  rw [List.length_map]

/-- Witness for C1: a concrete capacity and operation sequence. -/
theorem c1_invariants_after_any_op_sequence_witness :
    0 < 2 ∧
    (let c := CacheOp.applyAll (EvictingCache.fresh ℕ ℕ 2)
        ([CacheOp.put 1 (.val 10), CacheOp.put 2 (.val 20), CacheOp.get 1,
          CacheOp.put 3 (.val 30), CacheOp.getOrPut 4 (Except.ok (.val 40)),
          CacheOp.getOrPut 4 (Except.error ()), CacheOp.delete 2,
          CacheOp.evict, CacheOp.clear, CacheOp.put 5 (.val 50)] :
          List (CacheOp ℕ ℕ Unit))
     c.size = c.keysList.dedup.length ∧
     c.size ≤ c._capacity ∧
     (∀ k, c.has k = true ↔ k ∈ c.keysList) ∧
     c.keysList.Nodup) :=
  ⟨by decide,
   c1_invariants_after_any_op_sequence ℕ ℕ Unit 2 (by decide)
     [CacheOp.put 1 (.val 10), CacheOp.put 2 (.val 20), CacheOp.get 1,
      CacheOp.put 3 (.val 30), CacheOp.getOrPut 4 (Except.ok (.val 40)),
      CacheOp.getOrPut 4 (Except.error ()), CacheOp.delete 2,
      CacheOp.evict, CacheOp.clear, CacheOp.put 5 (.val 50)]⟩

/-- **C2** (`put` semantics): `put(key, value)` stores `value` under `key`
and makes `key` the most-recently-used entry (last of the recency order),
with `size ≤ capacity` on return.  If `key` was resident, the size is
unchanged and no other entry is touched (no eviction).  If `key` was new,
it is appended; when there was room nothing is removed and the size grows
by one, and when the cache was at capacity exactly the current
least-recently-used (head) entry is evicted. -/
theorem c2_put_semantics {K : Type u} {V : Type v} [DecidableEq K]
    (c : EvictingCache K V) (k : K) (v : JSValue V) (hinv : c.Inv) :
    let c' := c.put k v
    jsMapGetOpt c'.cache k = some v ∧
    c'.keysList.getLast? = some k ∧
    c'.size ≤ c._capacity ∧
    (c.has k = true →
       c'.cache = jsMapDelete c.cache k ++ [(k, v)] ∧
       c'.size = c.size ∧
       (∀ k2, k2 ≠ k → jsMapGetOpt c'.cache k2 = jsMapGetOpt c.cache k2)) ∧
    (c.has k = false →
       (c.size < c._capacity →
          c'.cache = c.cache ++ [(k, v)] ∧
          c'.size = c.size + 1 ∧
          (∀ k2, k2 ≠ k → jsMapGetOpt c'.cache k2 = jsMapGetOpt c.cache k2)) ∧
       (c.size = c._capacity →
          c'.cache = c.cache.tail ++ [(k, v)] ∧
          c'.size = c.size ∧
          (∀ e rest, c.cache = e :: rest →
             jsMapGetOpt c'.cache e.1 = none ∧
             ∀ k2, k2 ≠ k → k2 ≠ e.1 →
               jsMapGetOpt c'.cache k2 = jsMapGetOpt c.cache k2))) := by
  intro c'
  have hnd := hinv.1
  have hcap1 := hinv.2.2
  have hlen := hinv.2.1
  cases hh : c.has k with
  | true =>
      have hkmem : k ∈ c.keysList := (EvictingCache.has_iff_mem c k).mp hh
      have hdelnm : k ∉ jsMapKeys (jsMapDelete c.cache k) :=
        not_mem_jsMapKeys_delete k hnd
      have hc' : c'.cache = jsMapDelete c.cache k ++ [(k, v)] := by
        show (c.put k v).cache = _
        rw [EvictingCache.put, EvictingCache.putAndEvict_of_resident v hh,
          jsMapSet_of_not_mem v hdelnm]
      have hsz : c'.size = c.size := by
        show c'.cache.length = c.cache.length
        rw [hc', List.length_append, length_jsMapDelete]
        have hmem' : k ∈ jsMapKeys c.cache := hkmem
        have : 0 < c.cache.length := by
          cases hcc : c.cache with
          | nil => rw [hcc] at hmem'; simp [jsMapKeys] at hmem'
          | cons e rest => simp
        simp only [hmem', if_true, List.length_cons, List.length_nil]
        omega
      refine ⟨?_, ?_, ?_, fun _ => ⟨hc', hsz, ?_⟩, fun hcon => ?_⟩
      · rw [hc']; exact jsMapGetOpt_append_single_self k v hdelnm
      · show (jsMapKeys c'.cache).getLast? = some k
        rw [hc', jsMapKeys_append]
        exact getLast?_append_singleton _ k
      · show c'.cache.length ≤ c._capacity
        rw [show c'.cache.length = c.cache.length from hsz]
        exact hlen
      · intro k2 hk2
        rw [hc', jsMapGetOpt_append_single_ne v hk2,
          jsMapGetOpt_delete_of_ne hk2]
      · exact absurd hcon (by simp)
  | false =>
      have hkmem : k ∉ c.keysList := EvictingCache.not_mem_of_has_false hh
      cases Nat.lt_or_ge c.cache.length c._capacity with
      | inl hroom =>
          have hc' : c'.cache = c.cache ++ [(k, v)] := by
            show (c.put k v).cache = _
            rw [EvictingCache.put, EvictingCache.putAndEvict_of_new_room v hh hroom]
          refine ⟨?_, ?_, ?_, fun hcon => ?_, fun _ => ⟨fun _ => ⟨hc', ?_, ?_⟩, fun hfull => ?_⟩⟩
          · rw [hc']; exact jsMapGetOpt_append_single_self k v hkmem
          · show (jsMapKeys c'.cache).getLast? = some k
            rw [hc', jsMapKeys_append]
            exact getLast?_append_singleton _ k
          · show c'.cache.length ≤ c._capacity
            rw [hc', List.length_append]
            simpa using hroom
          · exact absurd hcon (by simp)
          · show c'.cache.length = c.cache.length + 1
            rw [hc', List.length_append]
            rfl
          · intro k2 hk2
            rw [hc', jsMapGetOpt_append_single_ne v hk2]
          · exact absurd hfull (Nat.ne_of_lt hroom)
      | inr hge =>
          have hfull : c.cache.length = c._capacity := Nat.le_antisymm hlen hge
          have hpos : 0 < c.cache.length := Nat.lt_of_lt_of_le hcap1 hge
          obtain ⟨e0, rest0, hc0⟩ : ∃ e rest, c.cache = e :: rest := by
            cases hcc : c.cache with
            | nil => rw [hcc] at hpos; simp at hpos
            | cons e rest => exact ⟨e, rest, rfl⟩
          have hkrest : k ∉ jsMapKeys rest0 := by
            intro hm
            apply hkmem
            show k ∈ jsMapKeys c.cache
            rw [hc0]
            exact List.mem_cons_of_mem _ hm
          have hktail : k ∉ jsMapKeys c.cache.tail := by rw [hc0]; exact hkrest
          have hc' : c'.cache = c.cache.tail ++ [(k, v)] := by
            show (c.put k v).cache = _
            rw [EvictingCache.put, EvictingCache.putAndEvict_of_new_full v hh hge hpos]
          have hndrest : (jsMapKeys rest0).Nodup ∧ e0.1 ∉ jsMapKeys rest0 := by
            have := hnd
            rw [show c.keysList = jsMapKeys c.cache from rfl, hc0] at this
            have h2 := List.nodup_cons.mp this
            exact ⟨h2.2, h2.1⟩
          refine ⟨?_, ?_, ?_, fun hcon => ?_, fun _ => ⟨fun hroom => ?_, fun _ => ⟨hc', ?_, ?_⟩⟩⟩
          · rw [hc']; exact jsMapGetOpt_append_single_self k v hktail
          · show (jsMapKeys c'.cache).getLast? = some k
            rw [hc', jsMapKeys_append]
            exact getLast?_append_singleton _ k
          · show c'.cache.length ≤ c._capacity
            have hlen0 : c.cache.length = rest0.length + 1 := by rw [hc0]; rfl
            rw [hc', List.length_append, hc0]
            simp only [List.tail_cons, List.length_cons, List.length_nil]
            omega
          · exact absurd hcon (by simp)
          · exact absurd hfull (Nat.ne_of_lt hroom)
          · show c'.cache.length = c.cache.length
            rw [hc', List.length_append, hc0]
            simp
          · intro e rest hc1
            rw [hc0] at hc1
            injection hc1 with he1 hrest1
            subst he1
            subst hrest1
            have he1k : e0.1 ≠ k := by
              intro hk
              apply hkmem
              show k ∈ jsMapKeys c.cache
              rw [hc0, ← hk]
              exact List.mem_cons_self _ _
            constructor
            · rw [hc', hc0]
              show jsMapGetOpt (rest0 ++ [(k, v)]) e0.1 = none
              rw [jsMapGetOpt_append_single_ne v he1k]
              exact jsMapGetOpt_eq_none_of_not_mem hndrest.2
            · intro k2 hk2 hk2e
              have h1 : jsMapGetOpt c'.cache k2 = jsMapGetOpt c.cache.tail k2 := by
                rw [hc']; exact jsMapGetOpt_append_single_ne v hk2
              rw [h1, hc0]
              show jsMapGetOpt rest0 k2 = jsMapGetOpt (e0 :: rest0) k2
              rw [jsMapGetOpt_cons, if_neg (fun hh2 => hk2e hh2.symm)]

/-- Witness for C2 at a concrete cache (capacity 2, full, new key 3:
the head entry for key 1 is evicted). -/
theorem c2_put_semantics_witness :
    EvictingCache.Inv
      (⟨2, [(1, JSValue.val 10), (2, JSValue.val 20)], 3, 4⟩ : EvictingCache ℕ ℕ) ∧
    (let c : EvictingCache ℕ ℕ := ⟨2, [(1, JSValue.val 10), (2, JSValue.val 20)], 3, 4⟩
     let c' := c.put 3 (JSValue.val 30)
     jsMapGetOpt c'.cache 3 = some (JSValue.val 30) ∧
     c'.keysList.getLast? = some 3 ∧
     c'.size ≤ c._capacity ∧
     (c.has 3 = true →
        c'.cache = jsMapDelete c.cache 3 ++ [(3, JSValue.val 30)] ∧
        c'.size = c.size ∧
        (∀ k2, k2 ≠ 3 → jsMapGetOpt c'.cache k2 = jsMapGetOpt c.cache k2)) ∧
     (c.has 3 = false →
        (c.size < c._capacity →
           c'.cache = c.cache ++ [(3, JSValue.val 30)] ∧
           c'.size = c.size + 1 ∧
           (∀ k2, k2 ≠ 3 → jsMapGetOpt c'.cache k2 = jsMapGetOpt c.cache k2)) ∧
        (c.size = c._capacity →
           c'.cache = c.cache.tail ++ [(3, JSValue.val 30)] ∧
           c'.size = c.size ∧
           (∀ e rest, c.cache = e :: rest →
              jsMapGetOpt c'.cache e.1 = none ∧
              ∀ k2, k2 ≠ 3 → k2 ≠ e.1 →
                jsMapGetOpt c'.cache k2 = jsMapGetOpt c.cache k2)))) :=
  ⟨by decide,
   c2_put_semantics (⟨2, [(1, JSValue.val 10), (2, JSValue.val 20)], 3, 4⟩ : EvictingCache ℕ ℕ)
     3 (JSValue.val 30) (by decide)⟩

/-- **C3 counterexample**: a key that is resident (`has` is true) but whose
stored value is `undefined` is treated as a miss by `get`: the hits counter
is not incremented (misses is), and `null` — not the stored value — is
returned.  The state is reached by `put(0, undefined)` on a fresh cache. -/
theorem c3_get_counterexample :
    let c := (EvictingCache.fresh ℕ ℕ 1).put 0 JSValue.undef
    c.has 0 = true ∧
    ¬ ((c.get 0).2.hits = c.hits + 1) ∧
    ¬ ((c.get 0).1 = (jsMapGetOpt c.cache 0).getD JSValue.null) ∧
    (c.get 0).2.misses = c.misses + 1 ∧
    (c.get 0).1 = JSValue.null := by
  decide

/-- **C3 amended**: for a key resident with a stored value other than
`undefined`, `get` increments `hits`, moves the key to the tail
(most-recently-used position) leaving all other entries in order, and
returns the stored value; for a key that is absent (or stored as
`undefined`), `get` increments `misses`, returns the `null` sentinel, and
changes nothing else. -/
theorem c3_get_semantics {K : Type u} {V : Type v} [DecidableEq K]
    (c : EvictingCache K V) (k : K) (hnd : c.keysList.Nodup) :
    (∀ v, jsMapGetOpt c.cache k = some v → v.isUndef = false →
       c.get k = (v, { c with hits := c.hits + 1,
                              cache := jsMapDelete c.cache k ++ [(k, v)] }) ∧
       ((c.get k).2.keysList).getLast? = some k) ∧
    (jsMapGetOpt c.cache k = none ∨
        jsMapGetOpt c.cache k = some JSValue.undef →
       c.get k = (.null, { c with misses := c.misses + 1 })) := by
  constructor
  · intro v hv hvu
    have h1 := EvictingCache.get_of_some_nodup hv hvu hnd
    refine ⟨h1, ?_⟩
    rw [h1]
    show (jsMapKeys (jsMapDelete c.cache k ++ [(k, v)])).getLast? = some k
    rw [jsMapKeys_append]
    exact getLast?_append_singleton _ k
  · rintro (hv | hv)
    · exact EvictingCache.get_of_absent hv
    · exact EvictingCache.get_of_undef hv

/-- Witness for the amended C3 at a concrete cache, applied at key 5
(hit branch live: stored proper value) and at key 0 (miss branch live:
stored `undefined`). -/
theorem c3_get_semantics_witness :
    (⟨3, [(5, JSValue.val 7), (0, JSValue.undef)], 0, 0⟩ :
        EvictingCache ℕ ℕ).keysList.Nodup ∧
    ((∀ v, jsMapGetOpt [(5, JSValue.val 7), (0, JSValue.undef)] 5 = some v →
        v.isUndef = false →
        (⟨3, [(5, JSValue.val 7), (0, JSValue.undef)], 0, 0⟩ :
            EvictingCache ℕ ℕ).get 5 =
          (v, { (⟨3, [(5, JSValue.val 7), (0, JSValue.undef)], 0, 0⟩ :
                    EvictingCache ℕ ℕ) with
                hits := 0 + 1,
                cache := jsMapDelete [(5, JSValue.val 7), (0, JSValue.undef)] 5
                    ++ [(5, v)] }) ∧
        (((⟨3, [(5, JSValue.val 7), (0, JSValue.undef)], 0, 0⟩ :
            EvictingCache ℕ ℕ).get 5).2.keysList).getLast? = some 5) ∧
     (jsMapGetOpt [(5, JSValue.val 7), (0, JSValue.undef)] 5 = none ∨
         jsMapGetOpt [(5, JSValue.val 7), (0, JSValue.undef)] 5 =
           some JSValue.undef →
        (⟨3, [(5, JSValue.val 7), (0, JSValue.undef)], 0, 0⟩ :
            EvictingCache ℕ ℕ).get 5 =
          (JSValue.null,
           { (⟨3, [(5, JSValue.val 7), (0, JSValue.undef)], 0, 0⟩ :
                 EvictingCache ℕ ℕ) with misses := 0 + 1 }))) ∧
    ((jsMapGetOpt [(5, JSValue.val 7), (0, JSValue.undef)] 0 = none ∨
         jsMapGetOpt [(5, JSValue.val 7), (0, JSValue.undef)] 0 =
           some JSValue.undef) ∧
     (⟨3, [(5, JSValue.val 7), (0, JSValue.undef)], 0, 0⟩ :
         EvictingCache ℕ ℕ).get 0 =
       (JSValue.null,
        { (⟨3, [(5, JSValue.val 7), (0, JSValue.undef)], 0, 0⟩ :
              EvictingCache ℕ ℕ) with misses := 0 + 1 })) :=
  ⟨by decide,
   c3_get_semantics (⟨3, [(5, JSValue.val 7), (0, JSValue.undef)], 0, 0⟩ :
     EvictingCache ℕ ℕ) 5 (by decide),
   Or.inr (by decide),
   (c3_get_semantics (⟨3, [(5, JSValue.val 7), (0, JSValue.undef)], 0, 0⟩ :
     EvictingCache ℕ ℕ) 0 (by decide)).2 (Or.inr (by decide))⟩

/-- **C4**: for a non-resident key and a producer that throws, `getOrPut`
propagates the error unchanged and leaves the cache exactly as before the
call — same capacity, entries, ordering, and hits — except that the
`misses` counter has been incremented by one (the recorded miss is not
rolled back). -/
theorem c4_getOrPut_error_propagation {K : Type u} {V : Type v} {ε : Type}
    [DecidableEq K] (c : EvictingCache K V) (k : K) (err : ε)
    (habs : c.has k = false) :
    c.getOrPut k (Except.error err) =
      (Except.error err, { c with misses := c.misses + 1 }) := by
  have hnone : jsMapGetOpt c.cache k = none :=
    jsMapGetOpt_eq_none_of_not_mem (EvictingCache.not_mem_of_has_false habs)
  have hget := EvictingCache.get_of_absent hnone
  simp [EvictingCache.getOrPut, hget]

/-- Witness for C4 at a concrete cache and error. -/
theorem c4_getOrPut_error_propagation_witness :
    (⟨2, [(1, JSValue.val 5)], 3, 4⟩ : EvictingCache ℕ ℕ).has 9 = false ∧
    (⟨2, [(1, JSValue.val 5)], 3, 4⟩ : EvictingCache ℕ ℕ).getOrPut 9
        (Except.error 42) =
      (Except.error 42,
       { (⟨2, [(1, JSValue.val 5)], 3, 4⟩ : EvictingCache ℕ ℕ) with
         misses := 4 + 1 }) :=
  ⟨by decide,
   c4_getOrPut_error_propagation (⟨2, [(1, JSValue.val 5)], 3, 4⟩ :
     EvictingCache ℕ ℕ) 9 (42 : ℕ) (by decide)⟩

/-- **C5 counterexample**: for a key resident with stored value `null`,
`getOrPut` does *not* behave like `get` and does invoke the producer: the
call returns the producer's value (not the existing stored value `null`),
overwrites the entry, and its outcome depends on the producer. -/
theorem c5_getOrPut_counterexample :
    let c := (EvictingCache.fresh ℕ ℕ 2).put 0 JSValue.null
    c.has 0 = true ∧
    jsMapGetOpt c.cache 0 = some JSValue.null ∧
    (c.getOrPut 0 (Except.ok (JSValue.val 7) : Except Unit (JSValue ℕ))).1 =
      Except.ok (JSValue.val 7) ∧
    ¬ ((c.getOrPut 0 (Except.ok (JSValue.val 7) : Except Unit (JSValue ℕ))).1 =
        Except.ok JSValue.null) ∧
    ¬ (c.getOrPut 0 (Except.ok (JSValue.val 7) : Except Unit (JSValue ℕ)) =
        c.getOrPut 0 (Except.ok (JSValue.val 8))) ∧
    jsMapGetOpt ((c.getOrPut 0
        (Except.ok (JSValue.val 7) : Except Unit (JSValue ℕ))).2).cache 0 =
      some (JSValue.val 7) := by
  decide

/-- **C5 amended**: for every key resident with a stored value that is
neither `undefined` nor `null`, `getOrPut` behaves exactly like `get` —
it increments `hits`, moves the key to the most-recently-used position,
and returns the existing stored value — and the producer is never
invoked: the outcome is the same for every producer. -/
theorem c5_getOrPut_resident_like_get {K : Type u} {V : Type v} {ε : Type}
    [DecidableEq K] (c : EvictingCache K V) (k : K) (w : JSValue V)
    (hv : jsMapGetOpt c.cache k = some w) (hnn : w.nullish = false)
    (hnd : c.keysList.Nodup) :
    ∀ p : Except ε (JSValue V),
      c.getOrPut k p = (Except.ok w, (c.get k).2) ∧
      (c.get k).2 = { c with hits := c.hits + 1,
                             cache := jsMapDelete c.cache k ++ [(k, w)] } := by
  intro p
  have hwu : w.isUndef = false := by cases w <;> simp_all
  have hwn : w.isNull = false := by cases w <;> simp_all
  have hget := EvictingCache.get_of_some_nodup hv hwu hnd
  constructor
  · simp [EvictingCache.getOrPut, hget, hwn]
  · rw [hget]

/-- Witness for the amended C5: with key 5 stored as a proper value, the
outcome is the same for two different producers and equals `get`'s. -/
theorem c5_getOrPut_resident_like_get_witness :
    jsMapGetOpt [(5, JSValue.val 7), (6, JSValue.val 8)] 5 =
        some (JSValue.val 7) ∧
    (JSValue.val 7 : JSValue ℕ).nullish = false ∧
    (⟨2, [(5, JSValue.val 7), (6, JSValue.val 8)], 0, 0⟩ :
        EvictingCache ℕ ℕ).keysList.Nodup ∧
    (∀ p : Except Unit (JSValue ℕ),
       (⟨2, [(5, JSValue.val 7), (6, JSValue.val 8)], 0, 0⟩ :
           EvictingCache ℕ ℕ).getOrPut 5 p =
         (Except.ok (JSValue.val 7),
          ((⟨2, [(5, JSValue.val 7), (6, JSValue.val 8)], 0, 0⟩ :
              EvictingCache ℕ ℕ).get 5).2) ∧
       ((⟨2, [(5, JSValue.val 7), (6, JSValue.val 8)], 0, 0⟩ :
           EvictingCache ℕ ℕ).get 5).2 =
         { (⟨2, [(5, JSValue.val 7), (6, JSValue.val 8)], 0, 0⟩ :
             EvictingCache ℕ ℕ) with
           hits := 0 + 1,
           cache := jsMapDelete [(5, JSValue.val 7), (6, JSValue.val 8)] 5
               ++ [(5, JSValue.val 7)] }) :=
  ⟨by decide, by decide, by decide,
   c5_getOrPut_resident_like_get (⟨2, [(5, JSValue.val 7), (6, JSValue.val 8)], 0, 0⟩ :
     EvictingCache ℕ ℕ) 5 (JSValue.val 7) (by decide) (by decide) (by decide)⟩

/-- **C6**: construction fails (with the `RangeError`, the spec's
`InvalidArgument` class) exactly when the supplied capacity is not a
positive integer — every capacity that is `≤ 0`, non-integral, `NaN`, or
`±Infinity` is rejected — and for every positive integer capacity
(including the default `100`) construction succeeds with an empty cache of
that fixed capacity. -/
theorem c6_create_validation (K : Type u) (V : Type v) (x : JSNum) :
    ((∃ c, EvictingCache.create K V x = Except.ok c) ↔
       ∃ n : ℕ, 0 < n ∧ x = JSNum.num (n : ℚ)) ∧
    (∀ n : ℕ, 0 < n →
       EvictingCache.create K V (JSNum.num (n : ℚ)) =
         Except.ok (EvictingCache.fresh K V n)) ∧
    EvictingCache.create K V = Except.ok (EvictingCache.fresh K V 100) := by
  have hok : ∀ n : ℕ, 0 < n →
      EvictingCache.create K V (JSNum.num (n : ℚ)) =
        Except.ok (EvictingCache.fresh K V n) := by
    intro n hn
    have h1 : (1 : ℚ) ≤ (n : ℚ) := by exact_mod_cast hn
    simp [EvictingCache.create, JSNum.ltOne, JSNum.isInteger,
      JSNum.toCapacity, EvictingCache.fresh, not_lt.mpr h1]
  refine ⟨⟨?_, ?_⟩, hok, ?_⟩
  · rintro ⟨c', hc⟩
    cases x with
    | nan => simp [EvictingCache.create, JSNum.ltOne, JSNum.isInteger] at hc
    | posInf => simp [EvictingCache.create, JSNum.ltOne, JSNum.isInteger] at hc
    | negInf => simp [EvictingCache.create, JSNum.ltOne, JSNum.isInteger] at hc
    | num q =>
        by_cases h1 : q < 1
        · simp [EvictingCache.create, JSNum.ltOne, h1] at hc
        · by_cases h2 : q.den = 1
          · have hqint : (q.num : ℚ) = q := (Rat.den_eq_one_iff q).mp h2
            have hq1 : (1 : ℚ) ≤ q := not_lt.mp h1
            have hznn : (1 : ℤ) ≤ q.num := by
              rw [← hqint] at hq1
              exact_mod_cast hq1
            refine ⟨q.num.toNat, by omega, ?_⟩
            have htn : ((q.num.toNat : ℕ) : ℤ) = q.num :=
              Int.toNat_of_nonneg (by omega)
            have h3 : ((q.num.toNat : ℕ) : ℚ) = ((q.num : ℤ) : ℚ) := by
              exact_mod_cast congrArg (fun z : ℤ => (z : ℚ)) htn
            rw [h3, hqint]
          · simp [EvictingCache.create, JSNum.ltOne, JSNum.isInteger,
              h1, h2] at hc
  · rintro ⟨n, hn, rfl⟩
    exact ⟨EvictingCache.fresh K V n, hok n hn⟩
  · have h100 := hok 100 (by norm_num)
    have : ((100 : ℕ) : ℚ) = (100 : ℚ) := by norm_num
    rw [this] at h100
    exact h100

/-- Witness for C6: capacity 3 is accepted and yields an empty cache. -/
theorem c6_create_validation_witness :
    0 < 3 ∧
    EvictingCache.create ℕ ℕ (JSNum.num ((3 : ℕ) : ℚ)) =
      Except.ok (EvictingCache.fresh ℕ ℕ 3) :=
  ⟨by decide,
   (c6_create_validation ℕ ℕ (JSNum.num ((3 : ℕ) : ℚ))).2.1 3 (by decide)⟩

/-- **C7 counterexample**: for a resident key whose stored value is
`undefined`, `peek` returns `null`, which is not the stored value (the
entry is resident, so the claim's "returns the stored value if resident"
branch applies and fails). -/
theorem c7_peek_counterexample :
    let c := (EvictingCache.fresh ℕ ℕ 1).put 0 JSValue.undef
    c.has 0 = true ∧
    jsMapGetOpt c.cache 0 = some JSValue.undef ∧
    (c.peek 0).1 = JSValue.null ∧
    ¬ ((c.peek 0).1 = JSValue.undef) := by
  decide

/-- **C7 amended**: `peek` returns the stored value for a resident key
whose stored value is not `undefined` (in particular a stored `null` is
returned as `null`), and the `null` sentinel for an absent key or a stored
`undefined`; it never changes the cache state (order, values, hits,
misses), so two consecutive peeks return the same value with no change
between them. -/
theorem c7_peek_semantics {K : Type u} {V : Type v} [DecidableEq K]
    (c : EvictingCache K V) (k : K) :
    (c.peek k).2 = c ∧
    (∀ w, jsMapGetOpt c.cache k = some w → w.isUndef = false →
       (c.peek k).1 = w) ∧
    (jsMapGetOpt c.cache k = none → (c.peek k).1 = JSValue.null) ∧
    (jsMapGetOpt c.cache k = some JSValue.undef →
       (c.peek k).1 = JSValue.null) ∧
    ((c.peek k).2).peek k = c.peek k := by
  refine ⟨rfl, ?_, ?_, ?_, rfl⟩
  · intro w hw hwu
    cases w with
    | undef => simp at hwu
    | null => simp [EvictingCache.peek, hw]
    | val a => simp [EvictingCache.peek, hw]
  · intro hw
    simp [EvictingCache.peek, hw]
  · intro hw
    simp [EvictingCache.peek, hw]

/-- Witness for the amended C7 at a concrete cache holding a stored
`null` and a proper value. -/
theorem c7_peek_semantics_witness :
    let c : EvictingCache ℕ ℕ := ⟨3, [(1, JSValue.val 5), (2, JSValue.null)], 7, 8⟩
    (c.peek 1).2 = c ∧
    (∀ w, jsMapGetOpt c.cache 1 = some w → w.isUndef = false →
       (c.peek 1).1 = w) ∧
    (jsMapGetOpt c.cache 1 = none → (c.peek 1).1 = JSValue.null) ∧
    (jsMapGetOpt c.cache 1 = some JSValue.undef →
       (c.peek 1).1 = JSValue.null) ∧
    ((c.peek 1).2).peek 1 = c.peek 1 :=
  c7_peek_semantics (⟨3, [(1, JSValue.val 5), (2, JSValue.null)], 7, 8⟩ :
    EvictingCache ℕ ℕ) 1

/-- **C9**: contents and statistics have independent lifecycles: `clear`
empties the entries (size becomes 0) without touching `hits`/`misses` or
the capacity, and `resetStats` zeroes both counters without touching the
entries, their order, or the capacity. -/
theorem c9_clear_resetStats_independent {K : Type u} {V : Type v}
    (c : EvictingCache K V) :
    c.clear.cache = [] ∧
    c.clear.size = 0 ∧
    c.clear.hits = c.hits ∧
    c.clear.misses = c.misses ∧
    c.clear._capacity = c._capacity ∧
    (c.resetStats).hits = 0 ∧
    (c.resetStats).misses = 0 ∧
    (c.resetStats).cache = c.cache ∧
    (c.resetStats)._capacity = c._capacity :=
  ⟨rfl, rfl, rfl, rfl, rfl, rfl, rfl, rfl, rfl⟩

namespace EvictingCache

variable {K : Type u} {V : Type v} [DecidableEq K]

/-- When `get(key) !== null`, the stored value is exactly the returned
value. -/
theorem get_fst_some_eq {c : EvictingCache K V} (k : K)
    (hnd : c.keysList.Nodup) (h : (c.get k).1.isNull = false) :
    jsMapGetOpt c.cache k = some ((c.get k).1) := by
  have hP := (get_fst_isNull_false_iff k hnd).mp h
  cases hv : jsMapGetOpt c.cache k with
  | none => rw [hv] at hP; simp at hP
  | some w =>
      rw [hv] at hP
      simp only [Option.getD_some] at hP
      have hwu : w.isUndef = false := by cases w <;> simp_all
      rw [get_fst_eq k hnd, hv]
      simp [hwu]

/-- The body of `getAll`'s loop. -/
def getAllStep (acc : List (K × JSValue V) × EvictingCache K V) (key : K) :
    List (K × JSValue V) × EvictingCache K V :=
  let r := acc.2.get key
  (if r.1.isNull = false then jsMapSet acc.1 key r.1 else acc.1, r.2)

theorem getAll_eq_foldl_step (c : EvictingCache K V) (keys : List K) :
    c.getAll keys = keys.foldl getAllStep ([], c) := rfl

/-- Characterization of `getAll`'s loop for an arbitrary starting
accumulator: the final state is the fold of `get`, and the result map
holds exactly the processed keys whose stored value (in the reference
cache `c`, whose values every loop state agrees with) is neither absent,
`undefined`, nor `null`. -/
theorem getAll_loop_spec (keys : List K) (res : List (K × JSValue V))
    (st c : EvictingCache K V) (hnd : st.keysList.Nodup)
    (hstable : ∀ k2, jsMapGetOpt st.cache k2 = jsMapGetOpt c.cache k2) :
    (keys.foldl getAllStep (res, st)).2 =
      keys.foldl (fun s k2 => (s.get k2).2) st ∧
    ∀ k2, jsMapGetOpt (keys.foldl getAllStep (res, st)).1 k2 =
      if k2 ∈ keys ∧
          ((jsMapGetOpt c.cache k2).getD JSValue.undef).nullish = false
      then jsMapGetOpt c.cache k2 else jsMapGetOpt res k2 := by
  induction keys generalizing res st with
  | nil => simp
  | cons key rest ih =>
      have hnd' : ((st.get key).2).keysList.Nodup := get_nodup key hnd
      have hstable' : ∀ k2,
          jsMapGetOpt ((st.get key).2).cache k2 = jsMapGetOpt c.cache k2 :=
        fun k2 => (get_lookup_eq key hnd k2).trans (hstable k2)
      obtain ⟨ih2, ih1⟩ := ih
        (if (st.get key).1.isNull = false
         then jsMapSet res key ((st.get key).1) else res)
        ((st.get key).2) hnd' hstable'
      refine ⟨?_, ?_⟩
      · simp only [List.foldl_cons, getAllStep]
        exact ih2
      · intro k2
        simp only [List.foldl_cons, getAllStep]
        rw [ih1 k2]
        by_cases hP :
            ((jsMapGetOpt c.cache k2).getD JSValue.undef).nullish = false
        · by_cases hmem : k2 ∈ rest
          · simp [hP, hmem]
          · by_cases hk : k2 = key
            · subst hk
              have hcond : (st.get k2).1.isNull = false := by
                rw [get_fst_isNull_false_iff k2 hnd, hstable k2]
                exact hP
              have hval : jsMapGetOpt st.cache k2 = some ((st.get k2).1) :=
                get_fst_some_eq k2 hnd hcond
              have hin : k2 ∈ k2 :: rest ∧
                  ((jsMapGetOpt c.cache k2).getD JSValue.undef).nullish
                    = false := ⟨List.mem_cons_self _ _, hP⟩
              rw [if_neg (fun hcc => hmem hcc.1)]
              rw [if_pos hcond, jsMapGetOpt_set_self, if_pos hin,
                ← hstable k2, hval]
            · rw [if_neg (fun hcc => hmem hcc.1)]
              have hnotc : ¬ (k2 ∈ key :: rest ∧
                  ((jsMapGetOpt c.cache k2).getD JSValue.undef).nullish
                    = false) := by
                rintro ⟨hin, -⟩
                rcases List.mem_cons.mp hin with h | h
                · exact hk h
                · exact hmem h
              rw [if_neg hnotc]
              by_cases hcnd : (st.get key).1.isNull = false
              · rw [if_pos hcnd]
                exact jsMapGetOpt_set_ne _ hk
              · rw [if_neg hcnd]
        · have hnotc : ¬ (k2 ∈ key :: rest ∧
              ((jsMapGetOpt c.cache k2).getD JSValue.undef).nullish
                = false) := fun hcc => hP hcc.2
          have hnotr : ¬ (k2 ∈ rest ∧
              ((jsMapGetOpt c.cache k2).getD JSValue.undef).nullish
                = false) := fun hcc => hP hcc.2
          rw [if_neg hnotr, if_neg hnotc]
          by_cases hcnd : (st.get key).1.isNull = false
          · have hk : k2 ≠ key := by
              intro hkk
              subst hkk
              apply hP
              rw [← hstable k2, ← get_fst_isNull_false_iff k2 hnd]
              exact hcnd
            rw [if_pos hcnd]
            exact jsMapGetOpt_set_ne _ hk
          · rw [if_neg hcnd]

end EvictingCache

/-- **C8 counterexample**: key 0 is supplied to `getAll` and is resident
(`has` is true), but its stored value is `null`, so the returned mapping
omits it — contradicting "contains exactly the supplied keys that were
present in the cache". -/
theorem c8_getAll_counterexample :
    let c := (EvictingCache.fresh ℕ ℕ 2).put 0 JSValue.null
    c.has 0 = true ∧
    (c.getAll [0]).1 = [] := by
  decide

/-- **C8 amended**: `getAll(keys)` updates the recency order and the
hit/miss counters exactly as one `get` per supplied key, in order, and
returns a mapping that contains exactly the supplied keys whose stored
value is a proper value (neither absent, nor `undefined`, nor `null`),
mapped to their stored values. -/
theorem c8_getAll_semantics {K : Type u} {V : Type v} [DecidableEq K]
    (c : EvictingCache K V) (keys : List K) (hnd : c.keysList.Nodup) :
    (c.getAll keys).2 = keys.foldl (fun s k2 => (s.get k2).2) c ∧
    ∀ k2, jsMapGetOpt (c.getAll keys).1 k2 =
      if k2 ∈ keys ∧
          ((jsMapGetOpt c.cache k2).getD JSValue.undef).nullish = false
      then jsMapGetOpt c.cache k2 else none := by
  have h := EvictingCache.getAll_loop_spec keys [] c c hnd (fun _ => rfl)
  rw [EvictingCache.getAll_eq_foldl_step]
  exact ⟨h.1, fun k2 => by simpa only [jsMapGetOpt_nil] using h.2 k2⟩

/-- Witness for the amended C8 at a concrete cache and key list: key 1 is
returned, key 2 (stored `null`) and key 3 (absent) are omitted. -/
theorem c8_getAll_semantics_witness :
    (⟨2, [(1, JSValue.val 10), (2, JSValue.null)], 0, 0⟩ :
        EvictingCache ℕ ℕ).keysList.Nodup ∧
    (((⟨2, [(1, JSValue.val 10), (2, JSValue.null)], 0, 0⟩ :
          EvictingCache ℕ ℕ).getAll [1, 2, 3]).2 =
        [1, 2, 3].foldl (fun s k2 => (s.get k2).2)
          (⟨2, [(1, JSValue.val 10), (2, JSValue.null)], 0, 0⟩ :
            EvictingCache ℕ ℕ) ∧
     ∀ k2, jsMapGetOpt
         ((( ⟨2, [(1, JSValue.val 10), (2, JSValue.null)], 0, 0⟩ :
             EvictingCache ℕ ℕ)).getAll [1, 2, 3]).1 k2 =
       if k2 ∈ [1, 2, 3] ∧
           ((jsMapGetOpt (⟨2, [(1, JSValue.val 10), (2, JSValue.null)], 0, 0⟩ :
               EvictingCache ℕ ℕ).cache k2).getD JSValue.undef).nullish = false
       then jsMapGetOpt (⟨2, [(1, JSValue.val 10), (2, JSValue.null)], 0, 0⟩ :
           EvictingCache ℕ ℕ).cache k2
       else none) :=
  ⟨by decide,
   c8_getAll_semantics (⟨2, [(1, JSValue.val 10), (2, JSValue.null)], 0, 0⟩ :
     EvictingCache ℕ ℕ) [1, 2, 3] (by decide)⟩

/-- **C10**: absence is detected by comparing stored values against the
reading operation's sentinel, not by key membership.  For a resident key
stored as `undefined`, `get` counts a miss and returns `null` even though
`has` is true.  For a resident key stored as `null`: `peek` returns
`null`, `getAll` omits the key from its result, and `getOrPut` invokes the
producer and overwrites the entry — all while `has` is true. -/
theorem c10_sentinel_absence {K : Type u} {V : Type v} {ε : Type}
    [DecidableEq K] (c : EvictingCache K V) (k : K)
    (hnd : c.keysList.Nodup) :
    (jsMapGetOpt c.cache k = some JSValue.undef →
       c.has k = true ∧
       c.get k = (JSValue.null, { c with misses := c.misses + 1 })) ∧
    (jsMapGetOpt c.cache k = some JSValue.null →
       c.has k = true ∧
       (c.peek k).1 = JSValue.null ∧
       (∀ ks : List K, jsMapGetOpt (c.getAll ks).1 k = none) ∧
       (∀ w : JSValue V,
          (c.getOrPut k (Except.ok w : Except ε (JSValue V))).1 =
            Except.ok w ∧
          jsMapGetOpt
              ((c.getOrPut k (Except.ok w : Except ε (JSValue V))).2).cache k =
            some w)) := by
  constructor
  · intro h
    exact ⟨by simp [EvictingCache.has, jsMapHas, h],
      EvictingCache.get_of_undef h⟩
  · intro h
    have hget := EvictingCache.get_of_some_nodup h (by simp) hnd
    have hkmem : k ∉ jsMapKeys (jsMapDelete c.cache k) :=
      not_mem_jsMapKeys_delete k hnd
    have hst : ((c.get k).2).cache =
        jsMapDelete c.cache k ++ [(k, JSValue.null)] := by rw [hget]
    have hhas2 : ((c.get k).2).has k = true := by
      simp [EvictingCache.has, jsMapHas, hst,
        jsMapGetOpt_append_single_self k _ hkmem]
    refine ⟨by simp [EvictingCache.has, jsMapHas, h], ?_, ?_, ?_⟩
    · simp [EvictingCache.peek, h]
    · intro ks
      have h8 := EvictingCache.getAll_loop_spec ks [] c c hnd (fun _ => rfl)
      rw [EvictingCache.getAll_eq_foldl_step, h8.2 k]
      have hnull : ¬ (k ∈ ks ∧
          ((jsMapGetOpt c.cache k).getD JSValue.undef).nullish = false) := by
        rintro ⟨-, hcc⟩
        rw [h] at hcc
        simp at hcc
      rw [if_neg hnull]
      rfl
    · intro w
      have hput := EvictingCache.putAndEvict_of_resident w hhas2
      constructor
      · simp [EvictingCache.getOrPut, hget, EvictingCache.putAndEvict]
      · simp only [EvictingCache.getOrPut]
        have hfst : ¬ ((c.get k).1.isNull = false) := by
          rw [hget]; simp
        rw [if_neg hfst, hput]
        exact jsMapGetOpt_set_self _ k w

/-- Witness for C10 at a concrete cache holding a stored `undefined` (key
0) and a stored `null` (key 1), instantiated at key 1. -/
theorem c10_sentinel_absence_witness :
    let c : EvictingCache ℕ ℕ :=
      ⟨3, [(0, JSValue.undef), (1, JSValue.null)], 0, 0⟩
    c.keysList.Nodup ∧
    ((jsMapGetOpt c.cache 1 = some JSValue.undef →
        c.has 1 = true ∧
        c.get 1 = (JSValue.null, { c with misses := c.misses + 1 })) ∧
     (jsMapGetOpt c.cache 1 = some JSValue.null →
        c.has 1 = true ∧
        (c.peek 1).1 = JSValue.null ∧
        (∀ ks : List ℕ, jsMapGetOpt (c.getAll ks).1 1 = none) ∧
        (∀ w : JSValue ℕ,
           (c.getOrPut 1 (Except.ok w : Except Unit (JSValue ℕ))).1 =
             Except.ok w ∧
           jsMapGetOpt
               ((c.getOrPut 1
                   (Except.ok w : Except Unit (JSValue ℕ))).2).cache 1 =
             some w))) :=
  ⟨by decide,
   @c10_sentinel_absence ℕ ℕ Unit _
     (⟨3, [(0, JSValue.undef), (1, JSValue.null)], 0, 0⟩ : EvictingCache ℕ ℕ)
     1 (by decide)⟩
